import Mathlib

/-!
Verification of the link-map parser core (`link_map.py`): tokenizer,
tree builder, function-section merger and tree differ, shallowly embedded
in Lean.  Strings are modelled as Lean `String`/`List Char`; the hex
numbers stored in the tree are modelled as `Nat` (the spec's data model
declares every address/size/align an unsigned integer); size deltas in
the diff are `Int`.  Fallible code (assertions, index errors) returns
`Option`.
-/

/-- One parsed row of the raw report (`LinkMapLine` in the source). -/
structure LinkMapLine where
  vma : String
  lma : String
  size : String
  align : String
  out : String
  in_ : String
  symbol : String
deriving Repr, DecidableEq

/-- Leaf entity of the tree (`Symbol` in the source). -/
structure MapSymbol where
  name : String
  vma : Nat
  lma : Nat
  size : Nat
  align : Nat
deriving Repr, DecidableEq

/-- Mid-level entity (`SectionIn` in the source). -/
structure SectionIn where
  name : String
  vma : Nat
  lma : Nat
  size : Nat
  align : Nat
  children : List MapSymbol
deriving Repr, DecidableEq

/-- Top-level entity (`SectionOut` in the source). -/
structure SectionOut where
  name : String
  vma : Nat
  lma : Nat
  size : Nat
  align : Nat
  children : List SectionIn
deriving Repr, DecidableEq

/-- Diff leaf (`DiffSymbol` in the source). -/
structure DiffSymbol where
  name : String
  sizes : List Nat
  delta : Int
deriving Repr, DecidableEq

/-- Diff mid-level node (`DiffSectionIn` in the source). -/
structure DiffSectionIn where
  name : String
  sizes : List Nat
  delta : Int
  children : List DiffSymbol
deriving Repr, DecidableEq

/-- Diff top-level node (`DiffSectionOut` in the source). -/
structure DiffSectionOut where
  name : String
  sizes : List Nat
  delta : Int
  children : List DiffSectionIn
deriving Repr, DecidableEq

/-- Split a character list at every character satisfying `p`, keeping the
(possibly empty) pieces between separators.  With `p` testing for a single
character this is exactly Python's `str.split(sep)`. -/
def splitOnPred (p : Char → Bool) : List Char → List (List Char)
  | [] => [[]]
  | c :: cs =>
    if p c then [] :: splitOnPred p cs
    else
      match splitOnPred p cs with
      | [] => [[c]]
      | t :: ts => (c :: t) :: ts

/-- `parse_space_separated` from the source: `[a for a in l.split(" ") if a]`. -/
def parse_space_separated (s : String) : List String :=
  ((splitOnPred (fun c => c == ' ') s.toList).filter (fun a => !a.isEmpty)).map
    (fun t => String.mk t)

/-- Python's `str.strip()`: drop whitespace from both ends. -/
def pyStrip (l : List Char) : List Char :=
  ((l.dropWhile Char.isWhitespace).reverse.dropWhile Char.isWhitespace).reverse

/-- `parse_positional` from the source: take the suffix of the line from
`idx`; if it is nonempty and does not start with a space, strip it,
otherwise the field is empty. -/
def parse_positional (l : List Char) (idx : Nat) : List Char :=
  match l.drop idx with
  | [] => []
  | c :: cs => if c = ' ' then [] else pyStrip (c :: cs)

/-- First index at which `pat` occurs as a contiguous sublist (Python's
`str.find`, with failure as `none`). -/
def findSub (pat : List Char) : List Char → Option Nat
  | [] => if pat.isPrefixOf ([] : List Char) then some 0 else none
  | c :: rest =>
    if pat.isPrefixOf (c :: rest) then some 0
    else (findSub pat rest).map (fun i => i + 1)

/-- `str.find` on strings. -/
def findStr (s pat : String) : Option Nat := findSub pat.toList s.toList

/-- Python's `str.splitlines`, restricted to the line-feed separator used
by the link maps: split at every newline and drop the final piece when it
is empty (so a trailing newline does not produce an extra blank line). -/
def splitLines (content : String) : List String :=
  let ps := splitOnPred (fun c => c == '\n') content.toList
  let ps := if ps.getLastD [] = [] then ps.dropLast else ps
  ps.map (fun t => String.mk t)

/-- The mandatory header row of a link map. -/
def headingStrs : List String := ["VMA", "LMA", "Size", "Align", "Out", "In", "Symbol"]

/-- One body line of the report: four space-separated tokens before the
`Out` column, then the three positional fields.  `none` models the
`IndexError` raised when fewer than four tokens precede the `Out` cut. -/
def parseLine (oi ii si : Nat) (line : String) : Option LinkMapLine :=
  match parse_space_separated (String.mk (line.toList.take oi)) with
  | v :: l :: s :: a :: _ =>
    some ⟨v, l, s, a,
      String.mk (parse_positional line.toList oi),
      String.mk (parse_positional line.toList ii),
      String.mk (parse_positional line.toList si)⟩
  | _ => none

/-- Sequential processing of the body lines; the first failing line aborts
the whole tokenization, as the first raised `IndexError` does. -/
def parseLines (oi ii si : Nat) : List String → Option (List LinkMapLine)
  | [] => some []
  | l :: ls =>
    match parseLine oi ii si l with
    | none => none
    | some e =>
      match parseLines oi ii si ls with
      | none => none
      | some es => some (e :: es)

/-- `tokenize_link_map` from the source.  Leading empty lines are dropped
(`while not lines[0]`), the header must equal `headingStrs` under the
space split, the three labels must be found at positive offsets, and every
body line is parsed positionally.  Any assertion or index failure is `none`. -/
def tokenize_link_map (content : String) : Option (List LinkMapLine) :=
  match (splitLines content).dropWhile (fun l => l == "") with
  | [] => none
  | heading_line :: rest =>
    if parse_space_separated heading_line = headingStrs then
      match findStr heading_line "Out", findStr heading_line "In",
            findStr heading_line "Symbol" with
      | some out_idx, some in_idx, some symbol_idx =>
        if 0 < out_idx ∧ 0 < in_idx ∧ 0 < symbol_idx then
          parseLines out_idx in_idx symbol_idx rest
        else none
      | _, _, _ => none
    else none

/-- The header line of a report: the first non-empty line. -/
def headerOf (content : String) : Option String :=
  ((splitLines content).dropWhile (fun l => l == "")).head?

/-- The body lines of a report: everything after the header line. -/
def bodyLines (content : String) : List String :=
  ((splitLines content).dropWhile (fun l => l == "")).tail

/-- Offset of the `Out` column label in the header (0 when absent). -/
def outIdxOf (content : String) : Nat :=
  ((headerOf content).bind (fun h => findStr h "Out")).getD 0

/-- Offset of the `In` column label in the header (0 when absent). -/
def inIdxOf (content : String) : Nat :=
  ((headerOf content).bind (fun h => findStr h "In")).getD 0

/-- Offset of the `Symbol` column label in the header (0 when absent). -/
def symIdxOf (content : String) : Nat :=
  ((headerOf content).bind (fun h => findStr h "Symbol")).getD 0

/-- One hexadecimal digit. -/
def parseHexDigit (c : Char) : Option Nat :=
  if '0' ≤ c ∧ c ≤ '9' then some (c.toNat - 48)
  else if 'a' ≤ c ∧ c ≤ 'f' then some (c.toNat - 87)
  else if 'A' ≤ c ∧ c ≤ 'F' then some (c.toNat - 55)
  else none

/-- Accumulate hexadecimal digits. -/
def hexDigits : List Char → Nat → Option Nat
  | [], acc => some acc
  | c :: cs, acc =>
    match parseHexDigit c with
    | none => none
    | some d => hexDigits cs (acc * 16 + d)

/-- Python's `int(s, base=16)` on the plain hex fields of a link map:
a nonempty string of hex digits; anything else is a fatal numeric error. -/
def parseHex (s : String) : Option Nat :=
  match s.toList with
  | [] => none
  | l => hexDigits l 0

/-- The four numeric fields of a record, parsed as hex. -/
def parseSized (e : LinkMapLine) : Option (Nat × Nat × Nat × Nat) :=
  match parseHex e.vma, parseHex e.lma, parseHex e.size, parseHex e.align with
  | some v, some l, some s, some a => some (v, l, s, a)
  | _, _, _, _ => none

/-- Apply `f` to the element at index `i` (no change when out of range). -/
def listModifyAt {α : Type} (f : α → α) : Nat → List α → List α
  | _, [] => []
  | 0, x :: xs => f x :: xs
  | n + 1, x :: xs => x :: listModifyAt f n xs

/-- Builder state: the tree grown so far plus the position aliased by the
mutable `symbols` list of the source (`none` models the initial dummy
list that is not part of the tree).  The source's `sections_in` alias
always points at the last output section's children once the leading
assertion has passed, so only the symbol cursor needs to be tracked. -/
structure BuildState where
  tree : List SectionOut
  symLoc : Option (Nat × Nat)
deriving Repr, DecidableEq

/-- Append a fresh input section to an output section's children. -/
def appendChildIn (newIn : SectionIn) (o : SectionOut) : SectionOut :=
  { o with children := o.children ++ [newIn] }

/-- Append a symbol to the children of the `ii`-th input section of an
output section. -/
def appendSymbolAt (sym : MapSymbol) (ii : Nat) (o : SectionOut) : SectionOut :=
  { o with children :=
      listModifyAt (fun sec => { sec with children := sec.children ++ [sym] }) ii o.children }

/-- One step of `build_tree`'s loop. -/
def buildStep (st : BuildState) (e : LinkMapLine) : Option BuildState :=
  match parseSized e with
  | none => none
  | some (v, l, s, a) =>
    if e.out ≠ "" then
      some ⟨st.tree ++ [⟨e.out, v, l, s, a, []⟩], st.symLoc⟩
    else if e.in_ ≠ "" then
      -- append to the last output section's children; the symbol cursor
      -- now aliases the children of the freshly appended input section
      match st.tree.length with
      | 0 => none
      | oLen + 1 =>
        match st.tree.get? oLen with
        | none => none
        | some o =>
          some ⟨listModifyAt (appendChildIn ⟨e.in_, v, l, s, a, []⟩) oLen st.tree,
            some (oLen, o.children.length)⟩
    else
      match st.symLoc with
      | none => some st
      | some (oi, ii) =>
        some ⟨listModifyAt (appendSymbolAt ⟨e.symbol, v, l, s, a⟩ ii) oi st.tree,
          st.symLoc⟩

/-- `build_tree` from the source: `elems[0]` must exist and open an output
section (the leading assertion), then the records are folded through the
cursor state machine. -/
def build_tree (elems : List LinkMapLine) : Option (List SectionOut) :=
  match elems with
  | [] => none
  | e0 :: _ =>
    if e0.out = "" then none
    else (elems.foldlM buildStep ⟨[], none⟩).map (fun st => st.tree)

/-- The character-level core of `strip_function_name`: truncate right
after `".o"` when the list contains the substring `".o:("`. -/
def stripKeyChars (l : List Char) : List Char :=
  match findSub ".o:(".toList l with
  | none => l
  | some idx => l.take (idx + 2)

/-- `strip_function_name` from the source: truncate the name right after
`".o"` when it contains the substring `".o:("`. -/
def strip_function_name (name : String) : String :=
  String.mk (stripKeyChars name.toList)

/-- Fold one section into an accumulated merged section, exactly as the
loop body of `merge_function_sections` updates the dictionary entry. -/
def mergeAbsorb (m s : SectionIn) : SectionIn :=
  { name := m.name
    vma := min m.vma s.vma
    lma := min m.lma s.lma
    size := m.size + s.size
    align := max m.align s.size
    children := m.children ++ s.children }

/-- One iteration of `merge_function_sections`' loop over the ordered
dictionary, modelled as an insertion-ordered association list keyed by
the merged name. -/
def mergeStep (acc : List SectionIn) (s : SectionIn) : List SectionIn :=
  let key := strip_function_name s.name
  if acc.any (fun e => e.name == key) then
    acc.map (fun e => if e.name == key then mergeAbsorb e s else e)
  else
    acc ++ [mergeAbsorb ⟨key, s.vma, s.lma, 0, 0, []⟩ s]

/-- `merge_function_sections` from the source. -/
def merge_function_sections (sections : List SectionIn) : List SectionIn :=
  sections.foldl mergeStep []

/-- First-seen deduplication of a key list (the iteration order of an
insertion-ordered dictionary built over these keys). -/
def firstSeenKeys : List String → List String
  | [] => []
  | x :: xs => x :: (firstSeenKeys xs).filter (fun y => !(y == x))

/-- Least element of a nonempty list of naturals (0 for the empty list,
which the merger never queries). -/
def natListMin : List Nat → Nat
  | [] => 0
  | x :: xs => xs.foldl min x

/-- Greatest element of a list of naturals. -/
def natListMax (l : List Nat) : Nat := l.foldl max 0

/-- Modelled from the spec's description of the merger (§4.3): the merged
section for key `k` has the minimum `vma` and `lma` of its group, the sum
of the group's sizes, the maximum of the group members' sizes as `align`,
and the concatenation of the group's symbol lists as children. -/
def spec_merged_section (sections : List SectionIn) (k : String) : SectionIn :=
  let g := sections.filter (fun s => strip_function_name s.name == k)
  { name := k
    vma := natListMin (g.map (fun s => s.vma))
    lma := natListMin (g.map (fun s => s.lma))
    size := (g.map (fun s => s.size)).sum
    align := natListMax (g.map (fun s => s.size))
    children := (g.map (fun s => s.children)).flatten }

/-- Modelled from the spec's description of the merger (§4.3): group the
sections by merge key, keys in first-seen order, and aggregate each group. -/
def spec_merge (sections : List SectionIn) : List SectionIn :=
  (firstSeenKeys (sections.map (fun s => strip_function_name s.name))).map
    (spec_merged_section sections)

/-- Insertion into an insertion-ordered dictionary modelled as an
association list: an existing key keeps its position and gets the new
value (Python dict semantics), a new key is appended. -/
def dictInsert {α : Type} (d : List (String × α)) (k : String) (v : α) :
    List (String × α) :=
  if d.any (fun p => p.1 == k) then
    d.map (fun p => if p.1 == k then (k, v) else p)
  else d ++ [(k, v)]

/-- `{f e : e for e in l}`: an insertion-ordered, last-value-wins
dictionary keyed by `f`. -/
def dictOf {α : Type} (f : α → String) (l : List α) : List (String × α) :=
  l.foldl (fun d e => dictInsert d (f e) e) []

/-- The keys of the dictionary, in iteration order. -/
def dictKeys {α : Type} (d : List (String × α)) : List String := d.map (fun p => p.1)

/-- `d.get(k)`. -/
def dictGet? {α : Type} (d : List (String × α)) (k : String) : Option α :=
  (d.find? (fun p => p.1 == k)).map (fun p => p.2)

/-- The `(e_a, e_b)` pair recorded by the differ's union loop for one name:
the entity from each side, or the all-zero placeholder made by `mk0`. -/
def unionEntry {α : Type} (da db : List (String × α)) (mk0 : String → α)
    (n : String) : String × α × α :=
  (n, ((dictGet? da n).getD (mk0 n), (dictGet? db n).getD (mk0 n)))

/-- One step of the differ's union loop: skip a name already present,
append the looked-up pair otherwise. -/
def unionStep {α : Type} (da db : List (String × α)) (mk0 : String → α)
    (u : List (String × α × α)) (n : String) : List (String × α × α) :=
  if u.any (fun p => p.1 == n) then u else u ++ [unionEntry da db mk0 n]

/-- The differ's union dictionary: all names of side A then side B, each
once, paired with the two looked-up (or placeholder) entities. -/
def unionPairs {α : Type} (da db : List (String × α)) (mk0 : String → α) :
    List (String × α × α) :=
  (dictKeys da ++ dictKeys db).foldl (unionStep da db mk0) []

/-- The all-zero placeholder `Symbol`. -/
def zeroSymbol (n : String) : MapSymbol := ⟨n, 0, 0, 0, 0⟩

/-- The all-zero placeholder `SectionIn`. -/
def zeroSectionIn (n : String) : SectionIn := ⟨n, 0, 0, 0, 0, []⟩

/-- The all-zero placeholder `SectionOut`. -/
def zeroSectionOut (n : String) : SectionOut := ⟨n, 0, 0, 0, 0, []⟩

/-- `diff_symbols` from the source. -/
def diff_symbols (a b : List MapSymbol) : List DiffSymbol :=
  (unionPairs (dictOf MapSymbol.name a) (dictOf MapSymbol.name b) zeroSymbol).filterMap
    (fun p =>
      if p.2.1.size = p.2.2.size then none
      else some { name := p.1, sizes := [p.2.1.size, p.2.2.size],
                  delta := (p.2.2.size : Int) - (p.2.1.size : Int) })

/-- `diff_section_in` from the source. -/
def diff_section_in (a b : List SectionIn) : List DiffSectionIn :=
  (unionPairs (dictOf SectionIn.name a) (dictOf SectionIn.name b)
      zeroSectionIn).filterMap
    (fun p =>
      if p.2.1.size = p.2.2.size then none
      else some { name := p.1, sizes := [p.2.1.size, p.2.2.size],
                  delta := (p.2.2.size : Int) - (p.2.1.size : Int),
                  children := diff_symbols p.2.1.children p.2.2.children })

/-- `diff_link_map` from the source. -/
def diff_link_map (a b : List SectionOut) : List DiffSectionOut :=
  (unionPairs (dictOf SectionOut.name a) (dictOf SectionOut.name b)
      zeroSectionOut).filterMap
    (fun p =>
      if p.2.1.size = p.2.2.size then none
      else some { name := p.1, sizes := [p.2.1.size, p.2.2.size],
                  delta := (p.2.2.size : Int) - (p.2.1.size : Int),
                  children := diff_section_in p.2.1.children p.2.2.children })

/-- The last entity of `l` named `n` — the value a last-wins dictionary
keyed by `f` stores for `n`. -/
def lastGet {α : Type} (f : α → String) (l : List α) (n : String) : Option α :=
  l.reverse.find? (fun e => f e == n)

/-- Modelled from the spec's description of the differ (§4.4): the diff
emits names in side A's first-seen order followed by the names exclusive
to side B. -/
def spec_diff_names {α : Type} (f : α → String) (a b : List α) : List String :=
  firstSeenKeys (a.map f) ++
    (firstSeenKeys (b.map f)).filter (fun n => !(a.map f).contains n)

/-- Modelled from the spec's description of the differ at the symbol
level: names with equal sizes (0 when absent) are dropped, the rest get
`sizes = [sizeA, sizeB]` and `delta = sizeB - sizeA`. -/
def spec_diff_symbols (a b : List MapSymbol) : List DiffSymbol :=
  (spec_diff_names MapSymbol.name a b).filterMap (fun n =>
    let ea := (lastGet MapSymbol.name a n).getD (zeroSymbol n)
    let eb := (lastGet MapSymbol.name b n).getD (zeroSymbol n)
    if ea.size = eb.size then none
    else some ⟨n, [ea.size, eb.size], (eb.size : Int) - (ea.size : Int)⟩)

/-- Modelled from the spec's description of the differ at the
input-section level (children are the recursive symbol diff). -/
def spec_diff_section_in (a b : List SectionIn) : List DiffSectionIn :=
  (spec_diff_names SectionIn.name a b).filterMap (fun n =>
    let ea := (lastGet SectionIn.name a n).getD (zeroSectionIn n)
    let eb := (lastGet SectionIn.name b n).getD (zeroSectionIn n)
    if ea.size = eb.size then none
    else some ⟨n, [ea.size, eb.size], (eb.size : Int) - (ea.size : Int),
               spec_diff_symbols ea.children eb.children⟩)

/-- Modelled from the spec's description of the differ at the
output-section level. -/
def spec_diff_link_map (a b : List SectionOut) : List DiffSectionOut :=
  (spec_diff_names SectionOut.name a b).filterMap (fun n =>
    let ea := (lastGet SectionOut.name a n).getD (zeroSectionOut n)
    let eb := (lastGet SectionOut.name b n).getD (zeroSectionOut n)
    if ea.size = eb.size then none
    else some ⟨n, [ea.size, eb.size], (eb.size : Int) - (ea.size : Int),
               spec_diff_section_in ea.children eb.children⟩)

/-- Splitting on runs of whitespace (the claim's reading of the header
tokenization): split at every whitespace character and drop the empty
pieces, i.e. the maximal whitespace-free runs. -/
def wsSplit (s : String) : List String :=
  ((splitOnPred Char.isWhitespace s.toList).filter (fun a => !a.isEmpty)).map
    (fun t => String.mk t)

/-- The field value claim C3 describes: the substring from the column's
start offset to the next cut point (end of line for the last), stripped
of surrounding whitespace unless the character at the cut offset is
itself non-whitespace, in which case it is taken as-is. -/
def claimedField (line : List Char) (start : Nat) (stop : Option Nat) : List Char :=
  let sub :=
    match stop with
    | some j => (line.take j).drop start
    | none => line.drop start
  match line.get? start with
  | some c => if c.isWhitespace then pyStrip sub else sub
  | none => pyStrip sub

/-- The amended description of a positional field: the substring from the
column offset to the end of the line; if it is nonempty and starts with a
character other than a space it is stripped of surrounding whitespace,
otherwise the field is empty. -/
def amendedField (l : List Char) (idx : Nat) : List Char :=
  if (l.drop idx).headD ' ' = ' ' then [] else pyStrip (l.drop idx)

/-- Mirror matching for diff leaves: same name, `sizes` reversed, `delta`
negated. -/
def mirrorMatchSym (d e : DiffSymbol) : Prop :=
  e.name = d.name ∧ e.sizes = d.sizes.reverse ∧ e.delta = -d.delta

/-- Every element of each list has a matching element in the other. -/
def listMatch {γ : Type} (R : γ → γ → Prop) (l₁ l₂ : List γ) : Prop :=
  (∀ d ∈ l₁, ∃ e ∈ l₂, R d e) ∧ (∀ e ∈ l₂, ∃ d ∈ l₁, R d e)

/-- Mirror matching for input-section diff nodes. -/
def mirrorMatchIn (d e : DiffSectionIn) : Prop :=
  e.name = d.name ∧ e.sizes = d.sizes.reverse ∧ e.delta = -d.delta ∧
    listMatch mirrorMatchSym d.children e.children

/-- Mirror matching for output-section diff nodes. -/
def mirrorMatchOut (d e : DiffSectionOut) : Prop :=
  e.name = d.name ∧ e.sizes = d.sizes.reverse ∧ e.delta = -d.delta ∧
    listMatch mirrorMatchIn d.children e.children

/-! ### Generic list helpers -/

theorem foldl_add_eq_add_sum (l : List Nat) (b : Nat) :
    l.foldl (fun x y => x + y) b = b + l.sum := by
  induction l generalizing b with
  | nil => simp
  | cons x t ih => simp [List.foldl_cons, ih, Nat.add_assoc]

theorem sum_filter_add_sum_filter_not (l : List Nat) (p : Nat → Bool) :
    (l.filter p).sum + (l.filter (fun x => !p x)).sum = l.sum := by
  induction l with
  | nil => simp
  | cons x t ih =>
    by_cases hx : p x = true
    · simp [hx, List.filter_cons, Nat.add_assoc, ih]
    · simp only [Bool.not_eq_true] at hx
      simp [hx, List.filter_cons, ← ih]
      omega

/-! ### First-seen deduplication -/

theorem mem_firstSeenKeys (y : String) (m : List String) :
    y ∈ firstSeenKeys m ↔ y ∈ m := by
  induction m with
  | nil => simp [firstSeenKeys]
  | cons x xs ih =>
    simp only [firstSeenKeys, List.mem_cons, List.mem_filter, ih]
    constructor
    · rintro (rfl | ⟨hy, _⟩)
      · exact Or.inl rfl
      · exact Or.inr hy
    · rintro (rfl | hy)
      · exact Or.inl rfl
      · by_cases hx : y = x
        · exact Or.inl hx
        · exact Or.inr ⟨hy, by simp [hx]⟩

theorem firstSeenKeys_nodup (m : List String) : (firstSeenKeys m).Nodup := by
  induction m with
  | nil => simp [firstSeenKeys]
  | cons x xs ih =>
    simp only [firstSeenKeys, List.nodup_cons]
    refine ⟨fun hx => ?_, ih.filter _⟩
    simp at hx
  
theorem firstSeenKeys_filter (p : String → Bool) (m : List String) :
    firstSeenKeys (m.filter p) = (firstSeenKeys m).filter p := by
  induction m with
  | nil => simp [firstSeenKeys]
  | cons x xs ih =>
    by_cases hx : p x = true
    · simp only [List.filter_cons, hx, if_pos, firstSeenKeys, ih]
      rw [List.filter_comm]
    · simp only [Bool.not_eq_true] at hx
      simp only [List.filter_cons, hx, Bool.false_eq_true, if_false, firstSeenKeys, ih]
      rw [List.filter_comm]
      refine (List.filter_eq_self.mpr ?_).symm
      intro y hy
      rcases List.mem_filter.mp hy with ⟨_, hpy⟩
      have hyx : y ≠ x := by rintro rfl; rw [hpy] at hx; cases hx
      simp [hyx]

theorem firstSeenKeys_cons (x : String) (xs : List String) :
    firstSeenKeys (x :: xs) = x :: firstSeenKeys (xs.filter (fun y => !(y == x))) := by
  rw [firstSeenKeys, firstSeenKeys_filter]

theorem firstSeenKeys_of_nodup (m : List String) (h : m.Nodup) : firstSeenKeys m = m := by
  induction m with
  | nil => rfl
  | cons x xs ih =>
    rcases List.nodup_cons.mp h with ⟨hx, hxs⟩
    rw [firstSeenKeys, ih hxs, List.filter_eq_self.mpr]
    intro y hy
    have : y ≠ x := fun hyx => hx (hyx ▸ hy)
    simp [this]

theorem firstSeenKeys_append (m₁ m₂ : List String) :
    firstSeenKeys (m₁ ++ m₂) =
      firstSeenKeys m₁ ++ (firstSeenKeys m₂).filter (fun y => !m₁.contains y) := by
  induction m₁ with
  | nil => simp [firstSeenKeys]
  | cons x m₁' ih =>
    have h1 : (x :: m₁') ++ m₂ = x :: (m₁' ++ m₂) := rfl
    rw [h1]
    simp only [firstSeenKeys, ih, List.filter_append, List.filter_filter, List.cons_append]
    congr 1
    congr 1
    apply List.filter_congr
    intro y _
    by_cases hyx : y = x
    · subst hyx
      simp [List.contains_cons]
    · have hb : (y == x) = false := beq_eq_false_iff_ne.mpr hyx
      simp [List.contains_cons, hb]
      intro _
      exact hyx

/-! ### Facts about `mergeStep` and the merger's fold -/

theorem mergeAbsorb_name (m s : SectionIn) : (mergeAbsorb m s).name = m.name := rfl

theorem mergeStep_cons_ne (e : SectionIn) (acc : List SectionIn) (s : SectionIn)
    (h : e.name ≠ strip_function_name s.name) :
    mergeStep (e :: acc) s = e :: mergeStep acc s := by
  have hb : (e.name == strip_function_name s.name) = false := beq_eq_false_iff_ne.mpr h
  by_cases hacc : acc.any (fun x => x.name == strip_function_name s.name) = true
  · simp [mergeStep, hb, hacc, h]
  · simp only [Bool.not_eq_true] at hacc
    simp [mergeStep, hb, hacc, h]

theorem mergeStep_cons_eq (e : SectionIn) (acc : List SectionIn) (s : SectionIn)
    (h : e.name = strip_function_name s.name)
    (hacc : ∀ x ∈ acc, x.name ≠ strip_function_name s.name) :
    mergeStep (e :: acc) s = mergeAbsorb e s :: acc := by
  have hb : (e.name == strip_function_name s.name) = true := beq_iff_eq.mpr h
  have hmap : List.map
      (fun x => if x.name == strip_function_name s.name then mergeAbsorb x s else x) acc
      = acc := by
    have hpt : ∀ x ∈ acc,
        (if x.name == strip_function_name s.name then mergeAbsorb x s else x) = id x := by
      intro x hx
      have hbx : (x.name == strip_function_name s.name) = false :=
        beq_eq_false_iff_ne.mpr (hacc x hx)
      simp [hbx]
    rw [List.map_congr_left hpt, List.map_id]
  have hany : ((e :: acc).any fun x => x.name == strip_function_name s.name) = true := by
    simp [List.any_cons, hb]
  simp only [mergeStep]
  rw [if_pos hany, List.map_cons]
  rw [if_pos hb, hmap]

theorem mergeStep_names (acc : List SectionIn) (s x : SectionIn)
    (hx : x ∈ mergeStep acc s) :
    x.name ∈ acc.map SectionIn.name ∨ x.name = strip_function_name s.name := by
  by_cases hacc : acc.any (fun e => e.name == strip_function_name s.name) = true
  · simp only [mergeStep, hacc, if_pos] at hx
    rcases List.mem_map.mp hx with ⟨e, he, rfl⟩
    by_cases hb : (e.name == strip_function_name s.name) = true
    · right
      rw [if_pos hb, mergeAbsorb_name]
      exact beq_iff_eq.mp hb
    · left
      simp only [Bool.not_eq_true] at hb
      rw [hb]
      simp only [Bool.false_eq_true, if_false]
      exact List.mem_map.mpr ⟨e, he, rfl⟩
  · simp only [Bool.not_eq_true] at hacc
    simp only [mergeStep, hacc, Bool.false_eq_true, if_false, List.mem_append,
      List.mem_singleton] at hx
    rcases hx with hx | rfl
    · exact Or.inl (List.mem_map.mpr ⟨x, hx, rfl⟩)
    · exact Or.inr rfl

theorem foldl_mergeStep_head (l : List SectionIn) :
    ∀ (e : SectionIn) (acc : List SectionIn), (∀ x ∈ acc, x.name ≠ e.name) →
    List.foldl mergeStep (e :: acc) l =
      ((l.filter (fun t => strip_function_name t.name == e.name)).foldl mergeAbsorb e)
        :: List.foldl mergeStep acc
            (l.filter (fun t => !(strip_function_name t.name == e.name))) := by
  induction l with
  | nil =>
    intro e acc _
    simp
  | cons s rest ih =>
    intro e acc hacc
    by_cases hk : strip_function_name s.name = e.name
    · have hstep : mergeStep (e :: acc) s = mergeAbsorb e s :: acc :=
        mergeStep_cons_eq e acc s hk.symm (fun x hx => by rw [hk]; exact hacc x hx)
      have hpos : (s :: rest).filter (fun t => strip_function_name t.name == e.name)
          = s :: rest.filter (fun t => strip_function_name t.name == e.name) := by
        simp [List.filter_cons, hk]
      have hneg : (s :: rest).filter (fun t => !(strip_function_name t.name == e.name))
          = rest.filter (fun t => !(strip_function_name t.name == e.name)) := by
        simp [List.filter_cons, hk]
      rw [List.foldl_cons, hstep, hpos, hneg, List.foldl_cons]
      have hih := ih (mergeAbsorb e s) acc
        (fun x hx => by rw [mergeAbsorb_name]; exact hacc x hx)
      simp only [mergeAbsorb_name] at hih
      exact hih
    · have hstep : mergeStep (e :: acc) s = e :: mergeStep acc s :=
        mergeStep_cons_ne e acc s (fun hh => hk hh.symm)
      have hb : (strip_function_name s.name == e.name) = false := beq_eq_false_iff_ne.mpr hk
      have hpos : (s :: rest).filter (fun t => strip_function_name t.name == e.name)
          = rest.filter (fun t => strip_function_name t.name == e.name) := by
        simp [List.filter_cons, hb]
      have hneg : (s :: rest).filter (fun t => !(strip_function_name t.name == e.name))
          = s :: rest.filter (fun t => !(strip_function_name t.name == e.name)) := by
        simp [List.filter_cons, hb]
      rw [List.foldl_cons, hstep, hpos, hneg, List.foldl_cons]
      apply ih e (mergeStep acc s)
      intro x hx
      rcases mergeStep_names acc s x hx with hmem | hname
      · rcases List.mem_map.mp hmem with ⟨y, hy, hxy⟩
        rw [← hxy]
        exact hacc y hy
      · rw [hname]
        exact fun hh => hk hh

theorem merge_cons (s : SectionIn) (l : List SectionIn) :
    merge_function_sections (s :: l) =
      ((l.filter (fun t =>
          strip_function_name t.name == strip_function_name s.name)).foldl
        mergeAbsorb
        (mergeAbsorb ⟨strip_function_name s.name, s.vma, s.lma, 0, 0, []⟩ s))
      :: merge_function_sections
          (l.filter (fun t =>
            !(strip_function_name t.name == strip_function_name s.name))) := by
  unfold merge_function_sections
  rw [List.foldl_cons]
  have h0 : mergeStep [] s
      = [mergeAbsorb ⟨strip_function_name s.name, s.vma, s.lma, 0, 0, []⟩ s] := by
    simp [mergeStep]
  rw [h0]
  have hh := foldl_mergeStep_head l
    (mergeAbsorb ⟨strip_function_name s.name, s.vma, s.lma, 0, 0, []⟩ s) []
    (by simp)
  simp only [mergeAbsorb_name] at hh
  exact hh

theorem foldl_mergeAbsorb_closed (g : List SectionIn) :
    ∀ base : SectionIn,
    g.foldl mergeAbsorb base =
      { name := base.name
        vma := (g.map (fun t => t.vma)).foldl min base.vma
        lma := (g.map (fun t => t.lma)).foldl min base.lma
        size := (g.map (fun t => t.size)).foldl (fun x y => x + y) base.size
        align := (g.map (fun t => t.size)).foldl max base.align
        children := base.children ++ (g.map (fun t => t.children)).flatten } := by
  induction g with
  | nil =>
    intro base
    simp
  | cons x t ih =>
    intro base
    rw [List.foldl_cons, ih]
    simp [mergeAbsorb, List.append_assoc]

theorem spec_merged_section_filter_ne (s : SectionIn) (l : List SectionIn) (k' : String)
    (hne : k' ≠ strip_function_name s.name) :
    spec_merged_section (s :: l) k' =
      spec_merged_section
        (l.filter (fun t =>
          !(strip_function_name t.name == strip_function_name s.name))) k' := by
  have hg : (s :: l).filter (fun t => strip_function_name t.name == k')
      = (l.filter (fun t =>
          !(strip_function_name t.name == strip_function_name s.name))).filter
            (fun t => strip_function_name t.name == k') := by
    rw [List.filter_filter, List.filter_cons]
    have hb : (strip_function_name s.name == k') = false :=
      beq_eq_false_iff_ne.mpr (fun hh => hne hh.symm)
    simp only [hb, Bool.false_eq_true, if_false]
    apply List.filter_congr
    intro t _
    by_cases ht : strip_function_name t.name = k'
    · have h1 : (strip_function_name t.name == k') = true := beq_iff_eq.mpr ht
      have h2 : (strip_function_name t.name == strip_function_name s.name) = false := by
        rw [ht]
        exact beq_eq_false_iff_ne.mpr hne
      simp [h1, h2]
    · simp [beq_eq_false_iff_ne.mpr ht]
  simp only [spec_merged_section, hg]

theorem spec_merge_cons (s : SectionIn) (l : List SectionIn) :
    spec_merge (s :: l) =
      spec_merged_section (s :: l) (strip_function_name s.name)
        :: spec_merge (l.filter (fun t =>
            !(strip_function_name t.name == strip_function_name s.name))) := by
  have hkeys : (s :: l).map (fun t => strip_function_name t.name)
      = strip_function_name s.name :: l.map (fun t => strip_function_name t.name) := rfl
  rw [spec_merge, hkeys, firstSeenKeys_cons, List.map_cons]
  congr 1
  have hfm : (l.map (fun t => strip_function_name t.name)).filter
        (fun y => !(y == strip_function_name s.name))
      = (l.filter (fun t =>
          !(strip_function_name t.name == strip_function_name s.name))).map
            (fun t => strip_function_name t.name) := by
    rw [List.filter_map]
    rfl
  rw [hfm, spec_merge]
  apply List.map_congr_left
  intro k' hk'
  apply spec_merged_section_filter_ne
  have hmem := (mem_firstSeenKeys _ _).mp hk'
  rcases List.mem_map.mp hmem with ⟨t, ht, rfl⟩
  rcases List.mem_filter.mp ht with ⟨_, hpt⟩
  intro hcontra
  rw [hcontra] at hpt
  simp at hpt

theorem merge_eq_spec_aux : ∀ (n : Nat) (l : List SectionIn), l.length ≤ n →
    merge_function_sections l = spec_merge l := by
  intro n
  induction n with
  | zero =>
    intro l hl
    have : l = [] := List.length_eq_zero.mp (Nat.le_zero.mp hl)
    subst this
    rfl
  | succ n ih =>
    intro l hl
    match l with
    | [] => rfl
    | s :: rest =>
      rw [merge_cons, spec_merge_cons]
      congr 1
      · -- the head group: fold form versus the spec's aggregate form
        rw [foldl_mergeAbsorb_closed]
        have hg : (s :: rest).filter
            (fun t => strip_function_name t.name == strip_function_name s.name)
            = s :: rest.filter
                (fun t => strip_function_name t.name == strip_function_name s.name) := by
          simp [List.filter_cons]
        simp only [spec_merged_section, hg, List.map_cons, mergeAbsorb, SectionIn.mk.injEq]
        refine ⟨trivial, ?_, ?_, ?_, ?_, ?_⟩ <;>
          simp [natListMin, natListMax, foldl_add_eq_add_sum, List.sum_cons,
            List.foldl_cons, Nat.min_self]
      · apply ih
        have hfl := List.length_filter_le
          (fun t => !(strip_function_name t.name == strip_function_name s.name)) rest
        have : rest.length + 1 ≤ n + 1 := hl
        omega

theorem merge_eq_spec (l : List SectionIn) : merge_function_sections l = spec_merge l :=
  merge_eq_spec_aux l.length l (Nat.le_refl _)

theorem sum_map_size_filter_add (l : List SectionIn) (p : SectionIn → Bool) :
    ((l.filter p).map (fun t => t.size)).sum
      + ((l.filter (fun t => !p t)).map (fun t => t.size)).sum
      = (l.map (fun t => t.size)).sum := by
  induction l with
  | nil => simp
  | cons x t ih =>
    by_cases hx : p x = true
    · simp [List.filter_cons, hx, Nat.add_assoc, ih]
    · simp only [Bool.not_eq_true] at hx
      simp [List.filter_cons, hx, ← ih]
      omega

theorem merge_size_sum_aux : ∀ (n : Nat) (l : List SectionIn), l.length ≤ n →
    ((merge_function_sections l).map (fun t => t.size)).sum
      = (l.map (fun t => t.size)).sum := by
  intro n
  induction n with
  | zero =>
    intro l hl
    have hnil : l = [] := List.length_eq_zero.mp (Nat.le_zero.mp hl)
    subst hnil
    rfl
  | succ n ih =>
    intro l hl
    match l with
    | [] => rfl
    | s :: rest =>
      rw [merge_cons]
      simp only [List.map_cons, List.sum_cons]
      have hsz : ((rest.filter (fun t =>
            strip_function_name t.name == strip_function_name s.name)).foldl
          mergeAbsorb (mergeAbsorb ⟨strip_function_name s.name, s.vma, s.lma, 0, 0, []⟩ s)).size
          = s.size + ((rest.filter (fun t =>
              strip_function_name t.name == strip_function_name s.name)).map
                (fun t => t.size)).sum := by
        rw [foldl_mergeAbsorb_closed]
        simp [mergeAbsorb, foldl_add_eq_add_sum]
      rw [hsz]
      have htail := ih (rest.filter (fun t =>
          !(strip_function_name t.name == strip_function_name s.name)))
        (by
          have hfl := List.length_filter_le
            (fun t => !(strip_function_name t.name == strip_function_name s.name)) rest
          have hlen : rest.length + 1 ≤ n + 1 := hl
          omega)
      rw [htail]
      have hpart := sum_map_size_filter_add rest
        (fun t => strip_function_name t.name == strip_function_name s.name)
      omega

/-! ### `strip_function_name` is idempotent -/

theorem findSub_some_spec (pat : List Char) :
    ∀ (l : List Char) (i : Nat), findSub pat l = some i →
      pat.isPrefixOf (l.drop i) = true ∧
        ∀ j, j < i → pat.isPrefixOf (l.drop j) = false := by
  intro l
  induction l with
  | nil =>
    intro i hi
    unfold findSub at hi
    by_cases hp : pat.isPrefixOf ([] : List Char) = true
    · rw [if_pos hp] at hi
      cases hi
      exact ⟨hp, fun j hj => absurd hj (Nat.not_lt_zero j)⟩
    · simp only [Bool.not_eq_true] at hp
      rw [hp] at hi
      simp at hi
  | cons c rest ih =>
    intro i hi
    unfold findSub at hi
    by_cases hp : pat.isPrefixOf (c :: rest) = true
    · rw [if_pos hp] at hi
      cases hi
      exact ⟨hp, fun j hj => absurd hj (Nat.not_lt_zero j)⟩
    · simp only [Bool.not_eq_true] at hp
      rw [hp] at hi
      simp only [Bool.false_eq_true, if_false, Option.map_eq_some'] at hi
      rcases hi with ⟨i', hi', rfl⟩
      rcases ih i' hi' with ⟨hpre, hmin⟩
      refine ⟨hpre, ?_⟩
      intro j hj
      match j with
      | 0 => exact hp
      | j' + 1 =>
        have : j' < i' := by omega
        exact hmin j' this

theorem findSub_take_none (pat l : List Char) (idx m : Nat) (hp : pat.length ≠ 0)
    (hfind : findSub pat l = some idx) (hm : m < idx + pat.length) :
    findSub pat (l.take m) = none := by
  cases hres : findSub pat (l.take m) with
  | none => rfl
  | some j =>
    exfalso
    rcases findSub_some_spec pat (l.take m) j hres with ⟨hpre, _⟩
    rw [List.drop_take] at hpre
    have hpre' := (List.isPrefixOf_iff_prefix).mp hpre
    have hlen : pat.length ≤ m - j := by
      have := hpre'.length_le
      have htl : ((l.drop j).take (m - j)).length ≤ m - j := by
        simp [List.length_take]
      omega
    have hj : j < idx := by omega
    have hpre2 : pat <+: l.drop j :=
      hpre'.trans (List.take_prefix _ _)
    have := (findSub_some_spec pat l idx hfind).2 j hj
    rw [(List.isPrefixOf_iff_prefix).mpr hpre2] at this
    cases this

theorem toList_mk (l : List Char) : (String.mk l).toList = l := rfl

theorem stripKeyChars_idem (l : List Char) :
    stripKeyChars (stripKeyChars l) = stripKeyChars l := by
  unfold stripKeyChars
  cases hf : findSub ".o:(".toList l with
  | none => rw [hf]
  | some idx =>
    have hnone : findSub ".o:(".toList (l.take (idx + 2)) = none := by
      apply findSub_take_none ".o:(".toList l idx (idx + 2) (by decide) hf
      have hfour : ".o:(".toList.length = 4 := by decide
      omega
    rw [hnone]

theorem strip_function_name_idem (name : String) :
    strip_function_name (strip_function_name name) = strip_function_name name := by
  unfold strip_function_name
  rw [toList_mk, stripKeyChars_idem]

theorem spec_merge_names (l : List SectionIn) :
    (spec_merge l).map SectionIn.name
      = firstSeenKeys (l.map (fun t => strip_function_name t.name)) := by
  unfold spec_merge
  rw [List.map_map]
  have hcomp : SectionIn.name ∘ spec_merged_section l = id := funext (fun k => rfl)
  rw [hcomp, List.map_id]

theorem merge_names_nodup (l : List SectionIn) :
    ((merge_function_sections l).map SectionIn.name).Nodup := by
  rw [merge_eq_spec, spec_merge_names]
  exact firstSeenKeys_nodup _

theorem merge_names_stripfixed (l : List SectionIn) :
    ∀ e ∈ merge_function_sections l, strip_function_name e.name = e.name := by
  intro e he
  rw [merge_eq_spec] at he
  rcases List.mem_map.mp he with ⟨k, hk, rfl⟩
  show strip_function_name (spec_merged_section l k).name = (spec_merged_section l k).name
  have hk' := (mem_firstSeenKeys _ _).mp hk
  rcases List.mem_map.mp hk' with ⟨t, _, rfl⟩
  exact strip_function_name_idem t.name

theorem merge_of_fixed_nodup (m : List SectionIn)
    (hfix : ∀ e ∈ m, strip_function_name e.name = e.name)
    (hnd : (m.map SectionIn.name).Nodup) :
    merge_function_sections m = m.map (fun t => { t with align := t.size }) := by
  induction m with
  | nil => rfl
  | cons e rest ih =>
    rw [merge_cons]
    have hke : strip_function_name e.name = e.name := hfix e (List.mem_cons_self e rest)
    have hnd' : (e.name :: rest.map SectionIn.name).Nodup := hnd
    rcases List.nodup_cons.mp hnd' with ⟨hhead, htail⟩
    have hposnil : rest.filter
        (fun t => strip_function_name t.name == strip_function_name e.name) = [] := by
      apply List.filter_eq_nil_iff.mpr
      intro t ht
      have htn : strip_function_name t.name = t.name :=
        hfix t (List.mem_cons_of_mem e ht)
      have htne : t.name ≠ e.name := by
        intro hcontra
        exact hhead (hcontra ▸ List.mem_map.mpr ⟨t, ht, rfl⟩)
      rw [htn, hke]
      simp [htne]
    have hnegall : rest.filter
        (fun t => !(strip_function_name t.name == strip_function_name e.name)) = rest := by
      apply List.filter_eq_self.mpr
      intro t ht
      have htn : strip_function_name t.name = t.name :=
        hfix t (List.mem_cons_of_mem e ht)
      have htne : t.name ≠ e.name := by
        intro hcontra
        exact hhead (hcontra ▸ List.mem_map.mpr ⟨t, ht, rfl⟩)
      rw [htn, hke]
      simp [htne]
    rw [hposnil, hnegall, List.foldl_nil, List.map_cons]
    congr 1
    · simp [mergeAbsorb, SectionIn.mk.injEq, hke, Nat.min_self]
    · exact ih (fun x hx => hfix x (List.mem_cons_of_mem e hx)) htail

theorem merge_idem_amended (l : List SectionIn) :
    merge_function_sections (merge_function_sections l)
      = (merge_function_sections l).map (fun t => { t with align := t.size }) :=
  merge_of_fixed_nodup _ (merge_names_stripfixed l) (merge_names_nodup l)


/-! ### Facts about the differ's dictionaries and union -/

theorem dictGet?_cons {α : Type} (p : String × α) (d : List (String × α)) (k : String) :
    dictGet? (p :: d) k = if p.1 == k then some p.2 else dictGet? d k := by
  by_cases h : (p.1 == k) = true
  · simp [dictGet?, List.find?_cons_of_pos, h]
  · simp only [Bool.not_eq_true] at h
    simp [dictGet?, List.find?_cons_of_neg, h]

theorem dictInsert_cons_ne {α : Type} (p : String × α) (d : List (String × α))
    (k : String) (v : α) (h : p.1 ≠ k) :
    dictInsert (p :: d) k v = p :: dictInsert d k v := by
  have hb : (p.1 == k) = false := beq_eq_false_iff_ne.mpr h
  unfold dictInsert
  simp only [List.any_cons, hb, Bool.false_or]
  by_cases hd : d.any (fun q => q.1 == k) = true
  · simp [hd, hb, h]
  · simp only [Bool.not_eq_true] at hd
    simp [hd]

theorem dictGet?_map_updKey {α : Type} (d : List (String × α)) (k k' : String) (v : α)
    (h : k' ≠ k) :
    dictGet? (d.map (fun p => if p.1 == k then (k, v) else p)) k' = dictGet? d k' := by
  induction d with
  | nil => rfl
  | cons p d' ih =>
    by_cases hpk : (p.1 == k) = true
    · have h2 : (k == k') = false := beq_eq_false_iff_ne.mpr (fun hh => h hh.symm)
      have h3 : (p.1 == k') = false := by
        rw [beq_iff_eq.mp hpk]
        exact h2
      rw [List.map_cons, if_pos hpk, dictGet?_cons, dictGet?_cons]
      dsimp only
      rw [h2, h3]
      simp only [Bool.false_eq_true, if_false]
      exact ih
    · rw [List.map_cons, if_neg hpk, dictGet?_cons, dictGet?_cons]
      cases hpk' : (p.1 == k') with
      | true => simp [hpk']
      | false =>
        simp only [hpk', Bool.false_eq_true, if_false]
        exact ih

theorem dictGet?_dictInsert_eq {α : Type} (d : List (String × α)) (k : String) (v : α) :
    dictGet? (dictInsert d k v) k = some v := by
  induction d with
  | nil =>
    simp [dictInsert, dictGet?]
  | cons p d' ih =>
    by_cases hpk : p.1 = k
    · have hb : (p.1 == k) = true := beq_iff_eq.mpr hpk
      unfold dictInsert
      simp only [List.any_cons, hb, Bool.true_or, if_true, List.map_cons]
      rw [dictGet?_cons]
      simp
    · rw [dictInsert_cons_ne p d' k v hpk, dictGet?_cons]
      have hb : (p.1 == k) = false := beq_eq_false_iff_ne.mpr hpk
      simp [hb, ih]

theorem dictGet?_dictInsert_ne {α : Type} (d : List (String × α)) (k k' : String) (v : α)
    (h : k' ≠ k) :
    dictGet? (dictInsert d k v) k' = dictGet? d k' := by
  have h2 : (k == k') = false := beq_eq_false_iff_ne.mpr (fun hh => h hh.symm)
  induction d with
  | nil =>
    simp [dictInsert, dictGet?, List.find?_cons, h2]
  | cons p d' ih =>
    by_cases hpk : p.1 = k
    · have hb : (p.1 == k) = true := beq_iff_eq.mpr hpk
      have h3 : (p.1 == k') = false := by
        rw [hpk]
        exact h2
      unfold dictInsert
      simp only [List.any_cons, hb, Bool.true_or, if_true, List.map_cons]
      rw [dictGet?_cons, dictGet?_cons]
      dsimp only
      rw [h2, h3]
      simp only [Bool.false_eq_true, if_false]
      exact dictGet?_map_updKey d' k k' v h
    · rw [dictInsert_cons_ne p d' k v hpk, dictGet?_cons, dictGet?_cons]
      cases hpk' : (p.1 == k') with
      | true => simp [hpk']
      | false =>
        simp only [hpk', Bool.false_eq_true, if_false]
        exact ih

theorem dictKeys_dictInsert {α : Type} (d : List (String × α)) (k : String) (v : α) :
    dictKeys (dictInsert d k v) =
      if k ∈ dictKeys d then dictKeys d else dictKeys d ++ [k] := by
  by_cases hmem : (d.any fun p => p.1 == k) = true
  · have hk : k ∈ dictKeys d := by
      rcases List.any_eq_true.mp hmem with ⟨p, hp, hpk⟩
      exact (beq_iff_eq.mp hpk) ▸ List.mem_map.mpr ⟨p, hp, rfl⟩
    unfold dictInsert
    rw [if_pos hmem, if_pos hk]
    simp only [dictKeys, List.map_map]
    apply List.map_congr_left
    intro p _
    by_cases hpk : (p.1 == k) = true
    · simp [Function.comp, hpk, (beq_iff_eq.mp hpk).symm]
    · simp only [Bool.not_eq_true] at hpk
      simp [Function.comp, hpk]
  · have hk : k ∉ dictKeys d := by
      intro hcontra
      rcases List.mem_map.mp hcontra with ⟨p, hp, rfl⟩
      have hc : (d.any fun q => q.1 == p.1) = true :=
        List.any_eq_true.mpr ⟨p, hp, by simp⟩
      exact hmem hc
    have hfalse : (d.any fun p => p.1 == k) = false := by
      cases hc : (d.any fun p => p.1 == k) with
      | false => rfl
      | true => exact absurd hc hmem
    unfold dictInsert
    rw [hfalse]
    simp only [Bool.false_eq_true, if_false, if_neg hk]
    simp [dictKeys]

theorem firstSeenKeys_append_singleton (m : List String) (k : String) :
    firstSeenKeys (m ++ [k]) =
      if k ∈ m then firstSeenKeys m else firstSeenKeys m ++ [k] := by
  rw [firstSeenKeys_append]
  by_cases hk : k ∈ m
  · have hc : m.contains k = true := List.elem_iff.mpr hk
    simp [firstSeenKeys, hc, hk]
  · have hc : m.contains k = false := by
      cases hcc : m.contains k with
      | false => rfl
      | true => exact absurd (List.elem_iff.mp hcc) hk
    simp [firstSeenKeys, hc, hk]

theorem dictOf_append_singleton {α : Type} (f : α → String) (l : List α) (e : α) :
    dictOf f (l ++ [e]) = dictInsert (dictOf f l) (f e) e := by
  unfold dictOf
  rw [List.foldl_append]
  rfl

theorem dictKeys_dictOf {α : Type} (f : α → String) (l : List α) :
    dictKeys (dictOf f l) = firstSeenKeys (l.map f) := by
  induction l using List.reverseRecOn with
  | nil => rfl
  | append_singleton l e ih =>
    rw [dictOf_append_singleton, dictKeys_dictInsert, ih, List.map_append]
    have hme : List.map f [e] = [f e] := rfl
    rw [hme, firstSeenKeys_append_singleton]
    have hiff : f e ∈ firstSeenKeys (l.map f) ↔ f e ∈ l.map f := mem_firstSeenKeys _ _
    by_cases hmem : f e ∈ l.map f
    · rw [if_pos (hiff.mpr hmem), if_pos hmem]
    · rw [if_neg (fun hc => hmem (hiff.mp hc)), if_neg hmem]

theorem dictGet?_dictOf {α : Type} (f : α → String) (l : List α) (n : String) :
    dictGet? (dictOf f l) n = lastGet f l n := by
  induction l using List.reverseRecOn with
  | nil => rfl
  | append_singleton l e ih =>
    rw [dictOf_append_singleton]
    by_cases hn : n = f e
    · subst hn
      rw [dictGet?_dictInsert_eq]
      unfold lastGet
      rw [List.reverse_append]
      simp
    · rw [dictGet?_dictInsert_ne _ _ _ _ hn, ih]
      unfold lastGet
      rw [List.reverse_append]
      have hb : (f e == n) = false := beq_eq_false_iff_ne.mpr (fun hh => hn hh.symm)
      simp [List.find?_cons_of_neg, hb]

theorem foldl_unionStep {α : Type} (da db : List (String × α)) (mk0 : String → α) :
    ∀ (ks : List String) (u : List (String × α × α)),
    ks.foldl (unionStep da db mk0) u
      = u ++ ((firstSeenKeys ks).filter
          (fun n => !(u.map (fun p => p.1)).contains n)).map (unionEntry da db mk0) := by
  intro ks
  induction ks with
  | nil =>
    intro u
    simp [firstSeenKeys]
  | cons n ks' ih =>
    intro u
    rw [List.foldl_cons]
    by_cases hmem : (u.any fun p => p.1 == n) = true
    · have hstep : unionStep da db mk0 u n = u := by
        simp [unionStep, hmem]
      have hn : ((u.map (fun p => p.1)).contains n) = true := by
        rcases List.any_eq_true.mp hmem with ⟨p, hp, hpk⟩
        exact List.elem_iff.mpr ((beq_iff_eq.mp hpk) ▸ List.mem_map.mpr ⟨p, hp, rfl⟩)
      rw [hstep, ih]
      congr 1
      congr 1
      rw [firstSeenKeys, List.filter_cons]
      simp only [hn, Bool.not_true, Bool.false_eq_true, if_false, List.filter_filter]
      apply List.filter_congr
      intro y _
      cases hy : ((u.map fun p => p.1).contains n) with
      | false =>
        rw [hy] at hn
        cases hn
      | true =>
        by_cases hyn : y = n
        · subst hyn
          simp [List.elem_iff.mp hy]
        · have hb : (y == n) = false := beq_eq_false_iff_ne.mpr hyn
          simp [hb]
    · have hfalse : (u.any fun p => p.1 == n) = false := by
        cases hc : (u.any fun p => p.1 == n) with
        | false => rfl
        | true => exact absurd hc hmem
      have hstep : unionStep da db mk0 u n = u ++ [unionEntry da db mk0 n] := by
        unfold unionStep
        rw [hfalse]
        simp
      have hn : ((u.map (fun p => p.1)).contains n) = false := by
        cases hc : ((u.map fun p => p.1).contains n) with
        | false => rfl
        | true =>
          exfalso
          rcases List.mem_map.mp (List.elem_iff.mp hc) with ⟨p, hp, hpn⟩
          exact hmem (List.any_eq_true.mpr ⟨p, hp, beq_iff_eq.mpr hpn⟩)
      rw [hstep, ih, List.append_assoc]
      congr 1
      have hkeys : ((u ++ [unionEntry da db mk0 n]).map fun p => p.1)
          = (u.map fun p => p.1) ++ [n] := by
        rw [List.map_append]
        rfl
      rw [hkeys, firstSeenKeys, List.filter_cons]
      simp only [hn, Bool.not_false, if_pos, List.filter_filter, List.map_cons]
      rw [List.singleton_append]
      congr 1
      congr 1
      apply List.filter_congr
      intro y _
      show (!((u.map fun p => p.1) ++ [n]).contains y)
        = (!(u.map fun p => p.1).contains y && !(y == n))
      by_cases hyn : y = n
      · subst hyn
        have hcy : ((u.map fun p => p.1) ++ [y]).contains y = true :=
          List.elem_iff.mpr (List.mem_append.mpr (Or.inr (List.mem_singleton.mpr rfl)))
        rw [hcy, beq_self_eq_true]
        simp only [Bool.not_true, Bool.and_false]
      · have hb : (y == n) = false := beq_eq_false_iff_ne.mpr hyn
        cases hc : ((u.map fun p => p.1).contains y) with
        | true =>
          have hcy : ((u.map fun p => p.1) ++ [n]).contains y = true :=
            List.elem_iff.mpr (List.mem_append.mpr (Or.inl (List.elem_iff.mp hc)))
          rw [hcy, hb]
          rfl
        | false =>
          have hcy : ((u.map fun p => p.1) ++ [n]).contains y = false := by
            cases hcc : (((u.map fun p => p.1) ++ [n]).contains y) with
            | false => rfl
            | true =>
              exfalso
              rcases List.mem_append.mp (List.elem_iff.mp hcc) with hy1 | hy2
              · have hcc2 : ((u.map fun p => p.1).contains y) = true := List.elem_iff.mpr hy1
                rw [hcc2] at hc
                cases hc
              · exact hyn (List.mem_singleton.mp hy2)
          rw [hcy, hb]
          rfl

theorem unionPairs_eq_spec_names {α : Type} (f : α → String) (a b : List α)
    (mk0 : String → α) :
    unionPairs (dictOf f a) (dictOf f b) mk0
      = (spec_diff_names f a b).map (unionEntry (dictOf f a) (dictOf f b) mk0) := by
  unfold unionPairs
  rw [foldl_unionStep]
  rw [List.nil_append]
  have htriv : ((firstSeenKeys (dictKeys (dictOf f a) ++ dictKeys (dictOf f b))).filter
        (fun n => !(([] : List (String × α × α)).map (fun p => p.1)).contains n))
      = firstSeenKeys (dictKeys (dictOf f a) ++ dictKeys (dictOf f b)) := by
    apply List.filter_eq_self.mpr
    intro y _
    rfl
  rw [htriv, firstSeenKeys_append, dictKeys_dictOf, dictKeys_dictOf,
    firstSeenKeys_of_nodup _ (firstSeenKeys_nodup (a.map f)),
    firstSeenKeys_of_nodup _ (firstSeenKeys_nodup (b.map f))]
  unfold spec_diff_names
  congr 2
  apply List.filter_congr
  intro y _
  cases hc : ((a.map f).contains y) with
  | true =>
    have hc2 : (firstSeenKeys (a.map f)).contains y = true :=
      List.elem_iff.mpr ((mem_firstSeenKeys _ _).mpr (List.elem_iff.mp hc))
    rw [hc2]
  | false =>
    have hc2 : (firstSeenKeys (a.map f)).contains y = false := by
      cases hcc : ((firstSeenKeys (a.map f)).contains y) with
      | false => rfl
      | true =>
        have hy : y ∈ a.map f := (mem_firstSeenKeys _ _).mp (List.elem_iff.mp hcc)
        have : ((a.map f).contains y) = true := List.elem_iff.mpr hy
        rw [this] at hc
        cases hc
    rw [hc2]

theorem diff_symbols_eq_spec (a b : List MapSymbol) :
    diff_symbols a b = spec_diff_symbols a b := by
  unfold diff_symbols spec_diff_symbols
  rw [unionPairs_eq_spec_names MapSymbol.name a b zeroSymbol, List.filterMap_map]
  apply List.filterMap_congr
  intro n _
  simp only [Function.comp, unionEntry, dictGet?_dictOf]

theorem diff_section_in_eq_spec (a b : List SectionIn) :
    diff_section_in a b = spec_diff_section_in a b := by
  unfold diff_section_in spec_diff_section_in
  rw [unionPairs_eq_spec_names SectionIn.name a b zeroSectionIn, List.filterMap_map]
  apply List.filterMap_congr
  intro n _
  simp only [Function.comp, unionEntry, dictGet?_dictOf, diff_symbols_eq_spec]

theorem diff_link_map_eq_spec (a b : List SectionOut) :
    diff_link_map a b = spec_diff_link_map a b := by
  unfold diff_link_map spec_diff_link_map
  rw [unionPairs_eq_spec_names SectionOut.name a b zeroSectionOut, List.filterMap_map]
  apply List.filterMap_congr
  intro n _
  simp only [Function.comp, unionEntry, dictGet?_dictOf, diff_section_in_eq_spec]

theorem mem_spec_diff_names {α : Type} (f : α → String) (a b : List α) (n : String) :
    n ∈ spec_diff_names f a b ↔ n ∈ a.map f ∨ n ∈ b.map f := by
  unfold spec_diff_names
  rw [List.mem_append]
  constructor
  · rintro (h1 | h2)
    · exact Or.inl ((mem_firstSeenKeys _ _).mp h1)
    · exact Or.inr ((mem_firstSeenKeys _ _).mp (List.mem_filter.mp h2).1)
  · rintro (h1 | h2)
    · exact Or.inl ((mem_firstSeenKeys _ _).mpr h1)
    · by_cases ha : n ∈ a.map f
      · exact Or.inl ((mem_firstSeenKeys _ _).mpr ha)
      · refine Or.inr (List.mem_filter.mpr ⟨(mem_firstSeenKeys _ _).mpr h2, ?_⟩)
        have hc : ((a.map f).contains n) = false := by
          cases hc2 : ((a.map f).contains n) with
          | false => rfl
          | true => exact absurd (List.elem_iff.mp hc2) ha
        rw [hc]
        rfl

theorem mirrorMatchSym_symm (d e : DiffSymbol) (h : mirrorMatchSym d e) :
    mirrorMatchSym e d := by
  rcases h with ⟨h1, h2, h3⟩
  refine ⟨h1.symm, ?_, ?_⟩
  · rw [h2, List.reverse_reverse]
  · rw [h3, neg_neg]

theorem listMatch_symm {γ : Type} (R : γ → γ → Prop) (hR : ∀ d e, R d e → R e d)
    (l₁ l₂ : List γ) (hfwd₁ : ∀ d ∈ l₁, ∃ e ∈ l₂, R d e)
    (hfwd₂ : ∀ d ∈ l₂, ∃ e ∈ l₁, R d e) : listMatch R l₁ l₂ := by
  refine ⟨hfwd₁, ?_⟩
  intro e he
  rcases hfwd₂ e he with ⟨d, hd, hmatch⟩
  exact ⟨d, hd, hR e d hmatch⟩

theorem diff_symbols_mirror_fwd (a b : List MapSymbol) :
    ∀ d ∈ diff_symbols a b, ∃ e ∈ diff_symbols b a, mirrorMatchSym d e := by
  intro d hd
  rw [diff_symbols_eq_spec] at hd
  rw [diff_symbols_eq_spec]
  rcases List.mem_filterMap.mp hd with ⟨n, hn, hfn⟩
  dsimp only at hfn
  by_cases hs : ((lastGet MapSymbol.name a n).getD (zeroSymbol n)).size
      = ((lastGet MapSymbol.name b n).getD (zeroSymbol n)).size
  · rw [if_pos hs] at hfn
    cases hfn
  · rw [if_neg hs] at hfn
    have hd' := Option.some.inj hfn
    refine ⟨⟨n, [((lastGet MapSymbol.name b n).getD (zeroSymbol n)).size,
        ((lastGet MapSymbol.name a n).getD (zeroSymbol n)).size],
        (((lastGet MapSymbol.name a n).getD (zeroSymbol n)).size : Int)
          - (((lastGet MapSymbol.name b n).getD (zeroSymbol n)).size : Int)⟩, ?_, ?_⟩
    · apply List.mem_filterMap.mpr
      refine ⟨n, ?_, ?_⟩
      · exact (mem_spec_diff_names _ b a n).mpr ((mem_spec_diff_names _ a b n).mp hn).symm
      · dsimp only
        rw [if_neg (fun hh => hs hh.symm)]
    · rw [← hd']
      refine ⟨rfl, ?_, ?_⟩
      · simp
      · simp only
        ring
  
theorem diff_symbols_mirror (a b : List MapSymbol) :
    listMatch mirrorMatchSym (diff_symbols a b) (diff_symbols b a) :=
  listMatch_symm mirrorMatchSym mirrorMatchSym_symm _ _
    (diff_symbols_mirror_fwd a b) (diff_symbols_mirror_fwd b a)

theorem mirrorMatchIn_symm (d e : DiffSectionIn) (h : mirrorMatchIn d e) :
    mirrorMatchIn e d := by
  rcases h with ⟨h1, h2, h3, h4⟩
  refine ⟨h1.symm, ?_, ?_, ?_⟩
  · rw [h2, List.reverse_reverse]
  · rw [h3, neg_neg]
  · rcases h4 with ⟨hfwd, hbwd⟩
    refine ⟨?_, ?_⟩
    · intro x hx
      rcases hbwd x hx with ⟨y, hy, hm⟩
      exact ⟨y, hy, mirrorMatchSym_symm y x hm⟩
    · intro y hy
      rcases hfwd y hy with ⟨x, hx, hm⟩
      exact ⟨x, hx, mirrorMatchSym_symm y x hm⟩

theorem diff_section_in_mirror_fwd (a b : List SectionIn) :
    ∀ d ∈ diff_section_in a b, ∃ e ∈ diff_section_in b a, mirrorMatchIn d e := by
  intro d hd
  rw [diff_section_in_eq_spec] at hd
  rw [diff_section_in_eq_spec]
  rcases List.mem_filterMap.mp hd with ⟨n, hn, hfn⟩
  dsimp only at hfn
  by_cases hs : ((lastGet SectionIn.name a n).getD (zeroSectionIn n)).size
      = ((lastGet SectionIn.name b n).getD (zeroSectionIn n)).size
  · rw [if_pos hs] at hfn
    cases hfn
  · rw [if_neg hs] at hfn
    have hd' := Option.some.inj hfn
    refine ⟨⟨n, [((lastGet SectionIn.name b n).getD (zeroSectionIn n)).size,
        ((lastGet SectionIn.name a n).getD (zeroSectionIn n)).size],
        (((lastGet SectionIn.name a n).getD (zeroSectionIn n)).size : Int)
          - (((lastGet SectionIn.name b n).getD (zeroSectionIn n)).size : Int),
        spec_diff_symbols
          ((lastGet SectionIn.name b n).getD (zeroSectionIn n)).children
          ((lastGet SectionIn.name a n).getD (zeroSectionIn n)).children⟩, ?_, ?_⟩
    · apply List.mem_filterMap.mpr
      refine ⟨n, ?_, ?_⟩
      · exact (mem_spec_diff_names _ b a n).mpr ((mem_spec_diff_names _ a b n).mp hn).symm
      · dsimp only
        rw [if_neg (fun hh => hs hh.symm)]
    · rw [← hd']
      refine ⟨rfl, ?_, ?_, ?_⟩
      · simp
      · simp only
        ring
      · simp only
        rw [← diff_symbols_eq_spec, ← diff_symbols_eq_spec]
        exact diff_symbols_mirror _ _

theorem diff_section_in_mirror (a b : List SectionIn) :
    listMatch mirrorMatchIn (diff_section_in a b) (diff_section_in b a) :=
  listMatch_symm mirrorMatchIn mirrorMatchIn_symm _ _
    (diff_section_in_mirror_fwd a b) (diff_section_in_mirror_fwd b a)

theorem mirrorMatchOut_symm (d e : DiffSectionOut) (h : mirrorMatchOut d e) :
    mirrorMatchOut e d := by
  rcases h with ⟨h1, h2, h3, h4⟩
  refine ⟨h1.symm, ?_, ?_, ?_⟩
  · rw [h2, List.reverse_reverse]
  · rw [h3, neg_neg]
  · rcases h4 with ⟨hfwd, hbwd⟩
    refine ⟨?_, ?_⟩
    · intro x hx
      rcases hbwd x hx with ⟨y, hy, hm⟩
      exact ⟨y, hy, mirrorMatchIn_symm y x hm⟩
    · intro y hy
      rcases hfwd y hy with ⟨x, hx, hm⟩
      exact ⟨x, hx, mirrorMatchIn_symm y x hm⟩

theorem diff_link_map_mirror_fwd (a b : List SectionOut) :
    ∀ d ∈ diff_link_map a b, ∃ e ∈ diff_link_map b a, mirrorMatchOut d e := by
  intro d hd
  rw [diff_link_map_eq_spec] at hd
  rw [diff_link_map_eq_spec]
  rcases List.mem_filterMap.mp hd with ⟨n, hn, hfn⟩
  dsimp only at hfn
  by_cases hs : ((lastGet SectionOut.name a n).getD (zeroSectionOut n)).size
      = ((lastGet SectionOut.name b n).getD (zeroSectionOut n)).size
  · rw [if_pos hs] at hfn
    cases hfn
  · rw [if_neg hs] at hfn
    have hd' := Option.some.inj hfn
    refine ⟨⟨n, [((lastGet SectionOut.name b n).getD (zeroSectionOut n)).size,
        ((lastGet SectionOut.name a n).getD (zeroSectionOut n)).size],
        (((lastGet SectionOut.name a n).getD (zeroSectionOut n)).size : Int)
          - (((lastGet SectionOut.name b n).getD (zeroSectionOut n)).size : Int),
        spec_diff_section_in
          ((lastGet SectionOut.name b n).getD (zeroSectionOut n)).children
          ((lastGet SectionOut.name a n).getD (zeroSectionOut n)).children⟩, ?_, ?_⟩
    · apply List.mem_filterMap.mpr
      refine ⟨n, ?_, ?_⟩
      · exact (mem_spec_diff_names _ b a n).mpr ((mem_spec_diff_names _ a b n).mp hn).symm
      · dsimp only
        rw [if_neg (fun hh => hs hh.symm)]
    · rw [← hd']
      refine ⟨rfl, ?_, ?_, ?_⟩
      · simp
      · simp only
        ring
      · simp only
        rw [← diff_section_in_eq_spec, ← diff_section_in_eq_spec]
        exact diff_section_in_mirror _ _

theorem diff_link_map_mirror (a b : List SectionOut) :
    listMatch mirrorMatchOut (diff_link_map a b) (diff_link_map b a) :=
  listMatch_symm mirrorMatchOut mirrorMatchOut_symm _ _
    (diff_link_map_mirror_fwd a b) (diff_link_map_mirror_fwd b a)

theorem diff_link_map_self (t : List SectionOut) : diff_link_map t t = [] := by
  rw [diff_link_map_eq_spec]
  unfold spec_diff_link_map
  apply List.filterMap_eq_nil_iff.mpr
  intro n _
  dsimp only
  rw [if_pos rfl]

/-! ### Splitter facts for the tokenizer -/

theorem splitOnPred_ne_nil (p : Char → Bool) (l : List Char) : splitOnPred p l ≠ [] := by
  cases l with
  | nil => simp [splitOnPred]
  | cons c cs =>
    unfold splitOnPred
    by_cases hc : p c = true
    · simp [hc]
    · simp only [Bool.not_eq_true] at hc
      simp only [hc, Bool.false_eq_true, if_false]
      cases splitOnPred p cs with
      | nil => simp
      | cons t ts => simp

theorem splitOnPred_cons_pos (p : Char → Bool) (c : Char) (cs : List Char)
    (hc : p c = true) : splitOnPred p (c :: cs) = [] :: splitOnPred p cs := by
  simp only [splitOnPred, hc, if_true]

theorem splitOnPred_cons_neg (p : Char → Bool) (c : Char) (cs : List Char)
    (hc : p c = false) :
    splitOnPred p (c :: cs) =
      match splitOnPred p cs with
      | [] => [[c]]
      | t :: ts => (c :: t) :: ts := by
  simp only [splitOnPred, hc, Bool.false_eq_true, if_false]

theorem splitOnPred_decomp (p : Char → Bool) (l : List Char) :
    splitOnPred p l = l.takeWhile (fun c => !p c) ::
      (match l.dropWhile (fun c => !p c) with
        | [] => []
        | _ :: rest => splitOnPred p rest) := by
  induction l with
  | nil => rfl
  | cons c cs ih =>
    by_cases hc : p c = true
    · rw [splitOnPred_cons_pos p c cs hc]
      have h1 : (c :: cs).takeWhile (fun c => !p c) = [] := by
        simp [List.takeWhile_cons, hc]
      have h2 : (c :: cs).dropWhile (fun c => !p c) = c :: cs := by
        simp [List.dropWhile_cons, hc]
      rw [h1, h2]
    · simp only [Bool.not_eq_true] at hc
      rw [splitOnPred_cons_neg p c cs hc, ih]
      have h1 : (c :: cs).takeWhile (fun c => !p c) = c :: cs.takeWhile (fun c => !p c) := by
        simp [List.takeWhile_cons, hc]
      have h2 : (c :: cs).dropWhile (fun c => !p c) = cs.dropWhile (fun c => !p c) := by
        simp [List.dropWhile_cons, hc]
      rw [h1, h2]

theorem length_dropWhile_le' (p : Char → Bool) (l : List Char) :
    (l.dropWhile p).length ≤ l.length :=
  (List.dropWhile_sublist p).length_le

theorem takeWhile_bang_congr (p q : Char → Bool) (hpq : ∀ c, p c = true → q c = true) :
    ∀ (l : List Char), (∀ c ∈ l.takeWhile (fun c => !p c), q c = false) →
      l.takeWhile (fun c => !q c) = l.takeWhile (fun c => !p c) ∧
      l.dropWhile (fun c => !q c) = l.dropWhile (fun c => !p c) := by
  intro l
  induction l with
  | nil => intro _; exact ⟨rfl, rfl⟩
  | cons c cs ih =>
    intro hfree
    by_cases hc : p c = true
    · have hqc : q c = true := hpq c hc
      constructor
      · simp [List.takeWhile_cons, hc, hqc]
      · simp [List.dropWhile_cons, hc, hqc]
    · simp only [Bool.not_eq_true] at hc
      have hmem : c ∈ (c :: cs).takeWhile (fun c => !p c) := by
        simp [List.takeWhile_cons, hc]
      have hqc : q c = false := hfree c hmem
      have hcs : ∀ x ∈ cs.takeWhile (fun c => !p c), q x = false := by
        intro x hx
        apply hfree
        simp [List.takeWhile_cons, hc]
        exact Or.inr hx
      rcases ih hcs with ⟨ht, hd⟩
      constructor
      · simp [List.takeWhile_cons, hc, hqc, ht]
      · simp [List.dropWhile_cons, hc, hqc, hd]

theorem tokensFilter_congr (p q : Char → Bool) (hpq : ∀ c, p c = true → q c = true) :
    ∀ (n : Nat) (l : List Char), l.length ≤ n →
      (∀ t ∈ (splitOnPred p l).filter (fun a => !a.isEmpty), ∀ c ∈ t, q c = false) →
      (splitOnPred q l).filter (fun a => !a.isEmpty)
        = (splitOnPred p l).filter (fun a => !a.isEmpty) := by
  intro n
  induction n with
  | zero =>
    intro l hl _
    have hnil : l = [] := List.length_eq_zero.mp (Nat.le_zero.mp hl)
    subst hnil
    rfl
  | succ n ih =>
    intro l hl hfree
    cases l with
    | nil => rfl
    | cons c cs =>
      by_cases hc : p c = true
      · have hqc : q c = true := hpq c hc
        have hp1 : splitOnPred p (c :: cs) = [] :: splitOnPred p cs :=
          splitOnPred_cons_pos p c cs hc
        have hq1 : splitOnPred q (c :: cs) = [] :: splitOnPred q cs :=
          splitOnPred_cons_pos q c cs hqc
        rw [hp1] at hfree
        rw [hp1, hq1]
        simp only [List.filter_cons]
        have hce : (!([] : List Char).isEmpty) = false := rfl
        rw [hce]
        simp only [Bool.false_eq_true, if_false]
        apply ih cs (by simpa using hl)
        simpa using hfree
      · simp only [Bool.not_eq_true] at hc
        -- the head token of the p-split is c followed by the p-free run of cs
        have hp1 : splitOnPred p (c :: cs)
            = (c :: cs.takeWhile (fun d => !p d)) ::
              (match cs.dropWhile (fun d => !p d) with
                | [] => []
                | _ :: rest => splitOnPred p rest) := by
          rw [splitOnPred_cons_neg p c cs hc, splitOnPred_decomp p cs]
        have hheadfree : ∀ x ∈ c :: cs.takeWhile (fun d => !p d), q x = false := by
          apply hfree
          rw [hp1]
          simp [List.filter_cons]
        have hqc : q c = false := hheadfree c (List.mem_cons_self _ _)
        have hcsfree : ∀ x ∈ cs.takeWhile (fun d => !p d), q x = false := by
          intro x hx
          exact hheadfree x (List.mem_cons_of_mem c hx)
        rcases takeWhile_bang_congr p q hpq cs hcsfree with ⟨ht, hd⟩
        have hq1 : splitOnPred q (c :: cs)
            = (c :: cs.takeWhile (fun d => !p d)) ::
              (match cs.dropWhile (fun d => !p d) with
                | [] => []
                | _ :: rest => splitOnPred q rest) := by
          rw [splitOnPred_cons_neg q c cs hqc, splitOnPred_decomp q cs, ht, hd]
        rw [hp1, hq1]
        simp only [List.filter_cons]
        have hne : (!(c :: cs.takeWhile (fun d => !p d)).isEmpty) = true := rfl
        rw [hne]
        simp only [if_pos]
        congr 1
        cases hdrop : cs.dropWhile (fun d => !p d) with
        | nil => rfl
        | cons sep rest =>
          have hlen : rest.length ≤ n := by
            have h1 : (cs.dropWhile (fun d => !p d)).length ≤ cs.length :=
              length_dropWhile_le' _ cs
            rw [hdrop] at h1
            have h2 : cs.length + 1 ≤ n + 1 := hl
            simp at h1
            omega
          apply ih rest hlen
          intro t ht' x hx
          apply hfree t ?_ x hx
          rw [hp1, hdrop]
          simp only [List.filter_cons, hne, if_pos, List.mem_cons]
          exact Or.inr ht'

theorem mk_toList (s : String) : String.mk s.toList = s := rfl

theorem map_mk_eq (l : List (List Char)) (m : List String)
    (h : l.map (fun t => String.mk t) = m) : l = m.map String.toList := by
  rw [← h, List.map_map]
  have hcomp : (String.toList ∘ fun t => String.mk t) = id := funext (fun t => rfl)
  rw [hcomp, List.map_id]

theorem wsSplit_of_space_split_heading (hline : String)
    (hsp : parse_space_separated hline = headingStrs) :
    wsSplit hline = headingStrs := by
  unfold parse_space_separated at hsp
  have hl : (splitOnPred (fun c => c == ' ') hline.toList).filter (fun a => !a.isEmpty)
      = headingStrs.map String.toList := map_mk_eq _ _ hsp
  unfold wsSplit
  have hq : (splitOnPred Char.isWhitespace hline.toList).filter (fun a => !a.isEmpty)
      = (splitOnPred (fun c => c == ' ') hline.toList).filter (fun a => !a.isEmpty) := by
    apply tokensFilter_congr (fun c => c == ' ') Char.isWhitespace ?_
      hline.toList.length hline.toList (Nat.le_refl _) ?_
    · intro c hc
      rw [beq_iff_eq.mp hc]
      decide
    · rw [hl]
      decide
  rw [hq, hl, List.map_map]
  have hcomp : ((fun t => String.mk t) ∘ String.toList) = id := funext (fun s => rfl)
  rw [hcomp, List.map_id]

/-! ### Tokenizer failure and field lemmas -/

theorem tokenize_header_fatal (content : String) (h : String)
    (hhead : headerOf content = some h)
    (hbad : wsSplit h ≠ headingStrs ∨ findStr h "Out" = none ∨ findStr h "In" = none
      ∨ findStr h "Symbol" = none) :
    tokenize_link_map content = none := by
  unfold headerOf at hhead
  unfold tokenize_link_map
  cases hsplit : (splitLines content).dropWhile (fun l => l == "") with
  | nil => rfl
  | cons h0 rest =>
    rw [hsplit] at hhead
    have hh0 : h0 = h := by
      simpa using hhead
    subst hh0
    dsimp only
    by_cases hheadok : parse_space_separated h0 = headingStrs
    · rw [if_pos hheadok]
      cases ho : findStr h0 "Out" with
      | none => rfl
      | some oi =>
        cases hi : findStr h0 "In" with
        | none => rfl
        | some ii =>
          cases hsy : findStr h0 "Symbol" with
          | none => rfl
          | some si =>
            rcases hbad with hws | hf | hf | hf
            · exact absurd (wsSplit_of_space_split_heading h0 hheadok) hws
            · rw [ho] at hf
              cases hf
            · rw [hi] at hf
              cases hf
            · rw [hsy] at hf
              cases hf
    · rw [if_neg hheadok]

theorem parseLine_none_of_short (oi ii si : Nat) (line : String)
    (h : (parse_space_separated (String.mk (line.toList.take oi))).length < 4) :
    parseLine oi ii si line = none := by
  unfold parseLine
  cases hm : parse_space_separated (String.mk (line.toList.take oi)) with
  | nil => rfl
  | cons v t1 =>
    cases t1 with
    | nil => rfl
    | cons l2 t2 =>
      cases t2 with
      | nil => rfl
      | cons s2 t3 =>
        cases t3 with
        | nil => rfl
        | cons a2 t4 =>
          exfalso
          rw [hm] at h
          simp at h
          omega

theorem parseLines_none_of_mem (oi ii si : Nat) :
    ∀ (ls : List String), (∃ line ∈ ls, parseLine oi ii si line = none) →
      parseLines oi ii si ls = none := by
  intro ls
  induction ls with
  | nil =>
    rintro ⟨line, hmem, _⟩
    cases hmem
  | cons l ls' ih =>
    rintro ⟨line, hmem, hnone⟩
    unfold parseLines
    rcases List.mem_cons.mp hmem with heq | hmem'
    · rw [heq] at hnone
      rw [hnone]
    · cases hpl : parseLine oi ii si l with
      | none => rfl
      | some e =>
        rw [ih ⟨line, hmem', hnone⟩]

theorem tokenize_body_short_fatal (content : String) (h : String) (oi : Nat)
    (hhead : headerOf content = some h)
    (hoi : findStr h "Out" = some oi)
    (hbad : ∃ line ∈ bodyLines content,
      (parse_space_separated (String.mk (line.toList.take oi))).length < 4) :
    tokenize_link_map content = none := by
  unfold headerOf at hhead
  unfold bodyLines at hbad
  unfold tokenize_link_map
  cases hsplit : (splitLines content).dropWhile (fun l => l == "") with
  | nil => rfl
  | cons h0 rest =>
    rw [hsplit] at hhead hbad
    have hh0 : h0 = h := by
      simpa using hhead
    subst hh0
    dsimp only
    by_cases hheadok : parse_space_separated h0 = headingStrs
    · rw [if_pos hheadok]
      cases ho : findStr h0 "Out" with
      | none => rfl
      | some oi' =>
        have hoi' : oi' = oi := by
          rw [ho] at hoi
          exact Option.some.inj hoi
        subst hoi'
        cases hi : findStr h0 "In" with
        | none => rfl
        | some ii =>
          cases hsy : findStr h0 "Symbol" with
          | none => rfl
          | some si =>
            dsimp only
            by_cases hpos : 0 < oi' ∧ 0 < ii ∧ 0 < si
            · rw [if_pos hpos]
              apply parseLines_none_of_mem
              rcases hbad with ⟨line, hmem, hshort⟩
              exact ⟨line, hmem, parseLine_none_of_short oi' ii si line hshort⟩
            · rw [if_neg hpos]
    · rw [if_neg hheadok]

theorem parse_positional_eq_amendedField (l : List Char) (idx : Nat) :
    parse_positional l idx = amendedField l idx := by
  unfold parse_positional amendedField
  cases hd : l.drop idx with
  | nil => simp
  | cons c cs =>
    by_cases hc : c = ' '
    · simp [hc]
    · simp [hc]

theorem parseLines_fields (oi ii si : Nat) :
    ∀ (ls : List String) (es : List LinkMapLine), parseLines oi ii si ls = some es →
      List.Forall₂ (fun (line : String) (e : LinkMapLine) =>
        e.out = String.mk (parse_positional line.toList oi) ∧
        e.in_ = String.mk (parse_positional line.toList ii) ∧
        e.symbol = String.mk (parse_positional line.toList si)) ls es := by
  intro ls
  induction ls with
  | nil =>
    intro es hes
    unfold parseLines at hes
    have hnil : es = [] := (Option.some.inj hes).symm
    subst hnil
    exact List.Forall₂.nil
  | cons l ls' ih =>
    intro es hes
    unfold parseLines at hes
    cases hpl : parseLine oi ii si l with
    | none =>
      rw [hpl] at hes
      cases hes
    | some e =>
      rw [hpl] at hes
      cases hrest : parseLines oi ii si ls' with
      | none =>
        rw [hrest] at hes
        cases hes
      | some es' =>
        rw [hrest] at hes
        have hcons : es = e :: es' := (Option.some.inj hes).symm
        subst hcons
        refine List.Forall₂.cons ?_ (ih es' hrest)
        unfold parseLine at hpl
        cases hm : parse_space_separated (String.mk (l.toList.take oi)) with
        | nil =>
          rw [hm] at hpl
          cases hpl
        | cons v t1 =>
          rw [hm] at hpl
          cases t1 with
          | nil => cases hpl
          | cons l2 t2 =>
            cases t2 with
            | nil => cases hpl
            | cons s2 t3 =>
              cases t3 with
              | nil => cases hpl
              | cons a2 t4 =>
                have he := Option.some.inj hpl
                rw [← he]
                exact ⟨rfl, rfl, rfl⟩

theorem tokenize_fields_amended_core (content : String) (elems : List LinkMapLine)
    (htok : tokenize_link_map content = some elems) :
    List.Forall₂ (fun (line : String) (e : LinkMapLine) =>
      e.out = String.mk (amendedField line.toList (outIdxOf content)) ∧
      e.in_ = String.mk (amendedField line.toList (inIdxOf content)) ∧
      e.symbol = String.mk (amendedField line.toList (symIdxOf content)))
      (bodyLines content) elems := by
  unfold tokenize_link_map at htok
  cases hsplit : (splitLines content).dropWhile (fun l => l == "") with
  | nil =>
    rw [hsplit] at htok
    cases htok
  | cons h0 rest =>
    rw [hsplit] at htok
    dsimp only at htok
    by_cases hheadok : parse_space_separated h0 = headingStrs
    case neg =>
      rw [if_neg hheadok] at htok
      cases htok
    rw [if_pos hheadok] at htok
    cases ho : findStr h0 "Out" with
    | none =>
      rw [ho] at htok
      cases htok
    | some oi =>
    rw [ho] at htok
    cases hi : findStr h0 "In" with
    | none =>
      rw [hi] at htok
      cases htok
    | some ii =>
    rw [hi] at htok
    cases hsy : findStr h0 "Symbol" with
    | none =>
      rw [hsy] at htok
      cases htok
    | some si =>
    rw [hsy] at htok
    dsimp only at htok
    by_cases hpos : 0 < oi ∧ 0 < ii ∧ 0 < si
    case neg =>
      rw [if_neg hpos] at htok
      cases htok
    rw [if_pos hpos] at htok
    have hofs : outIdxOf content = oi := by
      unfold outIdxOf headerOf
      rw [hsplit]
      simp [ho]
    have hifs : inIdxOf content = ii := by
      unfold inIdxOf headerOf
      rw [hsplit]
      simp [hi]
    have hsfs : symIdxOf content = si := by
      unfold symIdxOf headerOf
      rw [hsplit]
      simp [hsy]
    have hbody : bodyLines content = rest := by
      unfold bodyLines
      rw [hsplit]
      rfl
    rw [hofs, hifs, hsfs, hbody]
    have hff := parseLines_fields oi ii si rest elems htok
    apply List.Forall₂.imp ?_ hff
    intro line e hre
    rcases hre with ⟨h1, h2, h3⟩
    rw [parse_positional_eq_amendedField] at h1 h2 h3
    exact ⟨h1, h2, h3⟩

/-! ### Facts about `build_tree` -/

theorem build_tree_headless_none (elems : List LinkMapLine)
    (h : Option.all (fun e => e.out == "") elems.head? = true) :
    build_tree elems = none := by
  cases elems with
  | nil => rfl
  | cons e0 rest =>
    have he : e0.out = "" := by
      have h' : (e0.out == "") = true := h
      exact beq_iff_eq.mp h'
    unfold build_tree
    dsimp only
    rw [if_pos he]

/-! ### The claims -/

/-- Claim C1: for every list of input sections, `merge_function_sections`
groups sections by the key derived from the name (truncated right after
`".o"` when the name contains `".o:("`, otherwise unchanged), emits groups
in first-seen key order, and gives each merged section the minimum `vma`
and `lma` of its group, the sum of the group's sizes, the maximum of the
group members' sizes (not their aligns) as `align`, and the concatenation
of the group members' symbol lists as children — that is, it agrees with
the declarative `spec_merge` on every input. -/
theorem claim_C1_merge_matches_spec :
    ∀ sections : List SectionIn,
      merge_function_sections sections = spec_merge sections :=
  fun sections => merge_eq_spec sections

/-- Claim C2: at every diff level (output section, input section, symbol)
a name whose two sizes (0 when absent from a side) are equal does not
appear in the diff, a name with unequal sizes appears exactly once with
`sizes = [sizeA, sizeB]` and `delta = sizeB - sizeA`, and the output is
ordered by side A's name order followed by names exclusive to side B —
that is, each level of the differ agrees with its declarative spec
description (duplicate names resolved last-wins, as the dictionaries do). -/
theorem claim_C2_diff_matches_spec :
    (∀ a b : List MapSymbol, diff_symbols a b = spec_diff_symbols a b) ∧
    (∀ a b : List SectionIn, diff_section_in a b = spec_diff_section_in a b) ∧
    (∀ a b : List SectionOut, diff_link_map a b = spec_diff_link_map a b) :=
  ⟨diff_symbols_eq_spec, diff_section_in_eq_spec, diff_link_map_eq_spec⟩

/-- Claim C3, counterexample: the tokenizer does NOT take each positional
field as the substring from the column offset to the next cut point,
stripped unless flush at the column.  On a line whose `Out` region starts
with a space before a name, the claim predicts the stripped substring
(`"Z"`), but the tokenizer yields the empty field. -/
theorem claim_C3_counterexample :
    ¬ (∀ elems : List LinkMapLine,
        tokenize_link_map "VMA LMA Size Align Out In Symbol\n1 1 1 1             Z"
          = some elems →
        List.Forall₂ (fun (line : String) (e : LinkMapLine) =>
          e.out = String.mk (claimedField line.toList
            (outIdxOf "VMA LMA Size Align Out In Symbol\n1 1 1 1             Z")
            (some (inIdxOf "VMA LMA Size Align Out In Symbol\n1 1 1 1             Z"))) ∧
          e.in_ = String.mk (claimedField line.toList
            (inIdxOf "VMA LMA Size Align Out In Symbol\n1 1 1 1             Z")
            (some (symIdxOf "VMA LMA Size Align Out In Symbol\n1 1 1 1             Z"))) ∧
          e.symbol = String.mk (claimedField line.toList
            (symIdxOf "VMA LMA Size Align Out In Symbol\n1 1 1 1             Z") none))
          (bodyLines "VMA LMA Size Align Out In Symbol\n1 1 1 1             Z") elems) := by
  intro hclaim
  have h2 := hclaim [⟨"1", "1", "1", "1", "", "", ""⟩] (by decide)
  have hb : bodyLines "VMA LMA Size Align Out In Symbol\n1 1 1 1             Z"
      = ["1 1 1 1             Z"] := by decide
  rw [hb] at h2
  have h3 := (List.forall₂_cons.mp h2).1
  rcases h3 with ⟨hout, _, _⟩
  exact absurd hout (by decide)

/-- Claim C3, amended: each of the `Out`, `In`, `Symbol` fields of a body
line is the substring from that column's start offset to the END OF THE
LINE; when that substring is nonempty and starts with a character other
than a space it is stripped of surrounding whitespace, otherwise the
field is the empty string. -/
theorem claim_C3_amended (content : String) (elems : List LinkMapLine)
    (htok : tokenize_link_map content = some elems) :
    List.Forall₂ (fun (line : String) (e : LinkMapLine) =>
      e.out = String.mk (amendedField line.toList (outIdxOf content)) ∧
      e.in_ = String.mk (amendedField line.toList (inIdxOf content)) ∧
      e.symbol = String.mk (amendedField line.toList (symIdxOf content)))
      (bodyLines content) elems :=
  tokenize_fields_amended_core content elems htok

/-- Claim C3, amended, witness at a concrete report. -/
theorem claim_C3_amended_witness :
    List.Forall₂ (fun (line : String) (e : LinkMapLine) =>
      e.out = String.mk (amendedField line.toList
        (outIdxOf "VMA LMA Size Align Out In Symbol\n1 1 1 1            .text")) ∧
      e.in_ = String.mk (amendedField line.toList
        (inIdxOf "VMA LMA Size Align Out In Symbol\n1 1 1 1            .text")) ∧
      e.symbol = String.mk (amendedField line.toList
        (symIdxOf "VMA LMA Size Align Out In Symbol\n1 1 1 1            .text")))
      (bodyLines "VMA LMA Size Align Out In Symbol\n1 1 1 1            .text")
      [⟨"1", "1", "1", "1", ".text", "t", ""⟩] :=
  claim_C3_amended "VMA LMA Size Align Out In Symbol\n1 1 1 1            .text"
    [⟨"1", "1", "1", "1", ".text", "t", ""⟩] (by decide)

/-- Claim C4, counterexample: a symbol record directly following an
output-section record, with no intervening input-section record, does NOT
make the tree builder raise a fatal error: `build_tree` succeeds and the
symbol is silently dropped (it is appended to the builder's initial dummy
list, which is not part of the tree). -/
theorem claim_C4_counterexample :
    build_tree [⟨"2a8", "2a8", "8", "1", ".text", "", ""⟩,
                ⟨"2a8", "2a8", "8", "1", "", "", "FOO"⟩]
      = some [⟨".text", 680, 680, 8, 1, []⟩] := by decide

/-- Claim C4, amended: a symbol or input-section record can precede every
opened section only as the very first record; there (and for an empty
record list) `build_tree` raises a fatal error, via its leading assertion.
A symbol record following an output-section record with no intervening
input-section record is not an error: the symbol is silently dropped, or
appended to the most recently opened input section when one exists. -/
theorem claim_C4_amended (elems : List LinkMapLine)
    (h : Option.all (fun e => e.out == "") elems.head? = true) :
    build_tree elems = none :=
  build_tree_headless_none elems h

/-- Claim C4, amended, witness: a symbol record as the very first record
is fatal. -/
theorem claim_C4_amended_witness :
    build_tree [⟨"2a8", "2a8", "8", "1", "", "", "FOO"⟩] = none :=
  claim_C4_amended [⟨"2a8", "2a8", "8", "1", "", "", "FOO"⟩] (by decide)

/-- Claim C5, counterexample: `merge_function_sections` is NOT idempotent
on all fields: re-merging the merge of two `bar.cc.o:(...)` sections of
size 8 changes `align` from 8 (the largest member size) to 16 (the merged
section's own size). -/
theorem claim_C5_counterexample :
    merge_function_sections (merge_function_sections
      [⟨"bar.cc.o:(.text._FOO)", 256, 256, 8, 1, []⟩,
       ⟨"bar.cc.o:(.text._BAR)", 264, 264, 8, 1, []⟩])
      ≠ merge_function_sections
      [⟨"bar.cc.o:(.text._FOO)", 256, 256, 8, 1, []⟩,
       ⟨"bar.cc.o:(.text._BAR)", 264, 264, 8, 1, []⟩] := by decide

/-- Claim C5, amended: applying `merge_function_sections` twice yields the
once-merged list with every section unchanged except that its `align`
becomes its own (merged) `size`; names, `vma`, `lma`, `size` and
`children` are preserved. -/
theorem claim_C5_amended :
    ∀ l : List SectionIn,
      merge_function_sections (merge_function_sections l)
        = (merge_function_sections l).map (fun t => { t with align := t.size }) :=
  merge_idem_amended

/-- Claim C6: `diff(A,B)` and `diff(B,A)` contain the same set of names at
every level, each matching node having its `delta` negated and its
two-element `sizes` sequence reversed (and recursively mirrored children). -/
theorem claim_C6_diff_mirror :
    ∀ a b : List SectionOut,
      listMatch mirrorMatchOut (diff_link_map a b) (diff_link_map b a) :=
  diff_link_map_mirror

/-- Claim C7: the sum of the sizes of the sections returned by
`merge_function_sections` equals the sum of the sizes of the input
sections. -/
theorem claim_C7_merge_conserves_size :
    ∀ sections : List SectionIn,
      ((merge_function_sections sections).map (fun t => t.size)).sum
        = (sections.map (fun t => t.size)).sum :=
  fun sections => merge_size_sum_aux sections.length sections (Nat.le_refl _)

/-- Claim C8: the tokenizer discards leading blank lines (the header is
the first non-empty line), and whenever that header does not split on runs
of whitespace into exactly `["VMA","LMA","Size","Align","Out","In","Symbol"]`,
or one of the labels `Out`, `In`, `Symbol` cannot be located in it, the
tokenizer fails fatally, returning no partial result. -/
theorem claim_C8_header_fatal (content : String) (h : String)
    (hhead : headerOf content = some h)
    (hbad : wsSplit h ≠ headingStrs ∨ findStr h "Out" = none ∨ findStr h "In" = none
      ∨ findStr h "Symbol" = none) :
    tokenize_link_map content = none :=
  tokenize_header_fatal content h hhead hbad

/-- Claim C8, witness: a malformed header is fatal. -/
theorem claim_C8_witness :
    tokenize_link_map "hello\nVMA LMA Size Align Out In Symbol" = none :=
  claim_C8_header_fatal "hello\nVMA LMA Size Align Out In Symbol" "hello"
    (by decide) (Or.inl (by decide))

/-- Claim C9: diffing a tree against itself produces no entries at any
level. -/
theorem claim_C9_diff_self : ∀ t : List SectionOut, diff_link_map t t = [] :=
  diff_link_map_self

/-- Claim C10: a body line with fewer than four space-separated tokens
before the `Out` column offset (for example a blank line between records)
makes the tokenizer fail fatally; such lines are not skipped. -/
theorem claim_C10_short_line_fatal (content : String) (h : String) (oi : Nat)
    (hhead : headerOf content = some h)
    (hoi : findStr h "Out" = some oi)
    (hbad : ∃ line ∈ bodyLines content,
      (parse_space_separated (String.mk (line.toList.take oi))).length < 4) :
    tokenize_link_map content = none :=
  tokenize_body_short_fatal content h oi hhead hoi hbad

/-- Claim C10, witness: a blank line between records is fatal. -/
theorem claim_C10_witness :
    tokenize_link_map "VMA LMA Size Align Out In Symbol\n\n1 1 1 1            .text"
      = none :=
  claim_C10_short_line_fatal
    "VMA LMA Size Align Out In Symbol\n\n1 1 1 1            .text"
    "VMA LMA Size Align Out In Symbol" 19 (by decide) (by decide)
    ⟨"", by decide, by decide⟩
